import Mathlib

/-!
Shallow embedding of the SPHINCS+-style signature core in
challenges/challenge-9/sphincs_plus/sphincs_plus.py.

Bytes are modelled as `List Nat` (each element a byte value 0..255).
The hash primitive (hashlib.shake_256(data).digest(m), an extendable
output function returning exactly m bytes) is modelled as an explicit
function parameter `Hf : List Nat -> Nat -> List Nat`; theorems that
need it assume every output has the requested length.  Python
exceptions (ValueError in _chain and _fors_sign, IndexError from
out-of-range byte indexing in _fors_verify) are modelled with Option:
`none` is a raised exception.  `os.urandom` draws in generate_keypair
are modelled as explicit seed arguments.
-/

namespace SPX

/-- Python list slicing l[a:b] for nonnegative bounds. -/
def pySlice (l : List Nat) (a b : Nat) : List Nat := (l.take b).drop a

/-- Python j.to_bytes(len, "big").  The source only calls it with j in
range (j < 256^len); Python would raise OverflowError otherwise. -/
def natToBytes (len j : Nat) : List Nat :=
  (List.range len).map (fun i => j / 256 ^ (len - 1 - i) % 256)

/-- Python int.from_bytes(msg, "big") on a byte string. -/
def bytesToNat (l : List Nat) : Nat := l.foldl (fun a b => a * 256 + b) 0

/-- Structural helper for bit_length: the fuel bounds the number of
halvings, and fuel = x always suffices. -/
def bit_length_aux : Nat → Nat → Nat
  | 0, _ => 0
  | fuel + 1, x => if x = 0 then 0 else bit_length_aux fuel (x / 2) + 1

/-- Python (x).bit_length() for a natural number. -/
def bit_length (x : Nat) : Nat := bit_length_aux x x

/-- SPHINCSPlus._log2: (value - 1).bit_length(). -/
def log2 (value : Nat) : Nat := bit_length (value - 1)

/-- The constructor parameters of SPHINCSPlus.__init__. -/
structure Params where
  n : Nat
  h : Nat
  d : Nat
  k : Nat
  w : Nat
  t : Nat
  robust : Bool

/-- Derived parameter self.wots_logw. -/
def wots_logw (p : Params) : Nat := log2 p.w

/-- Derived parameter self.wots_len1 = int((8 * n) / wots_logw). -/
def wots_len1 (p : Params) : Nat := 8 * p.n / wots_logw p

/-- Derived parameter self.wots_len2 = int(log2(len1 * (w - 1)) / logw) + 1. -/
def wots_len2 (p : Params) : Nat := log2 (wots_len1 p * (p.w - 1)) / wots_logw p + 1

/-- Derived parameter self.wots_len. -/
def wots_len (p : Params) : Nat := wots_len1 p + wots_len2 p

/-- Derived parameter self.tree_height = int(h / d). -/
def tree_height (p : Params) : Nat := p.h / p.d

/-- Derived parameter self.fors_height = _log2(t). -/
def fors_height (p : Params) : Nat := log2 p.t

/-- Derived parameter self.message_digest_len = int(k * fors_height / 8).
Python int() truncates, so this is the floor of k * fors_height / 8. -/
def message_digest_len (p : Params) : Nat := p.k * fors_height p / 8

/-- The byte string b"randomized". -/
def bRandomized : List Nat := [114, 97, 110, 100, 111, 109, 105, 122, 101, 100]

/-- The byte string b"tree". -/
def bTree : List Nat := [116, 114, 101, 101]

/-- The byte string b"leaf". -/
def bLeaf : List Nat := [108, 101, 97, 102]

/-- The byte string b"up". -/
def bUp : List Nat := [117, 112]

/-- The byte string b"node". -/
def bNode : List Nat := [110, 111, 100, 101]

/-- The byte string b"hash". -/
def bHash : List Nat := [104, 97, 115, 104]

/-- The byte string b"SPHINCS+_root". -/
def bRootAddr : List Nat := [83, 80, 72, 73, 78, 67, 83, 43, 95, 114, 111, 111, 116]

/-- The byte string b"SPHINCS+_fors". -/
def bForsAddr : List Nat := [83, 80, 72, 73, 78, 67, 83, 43, 95, 102, 111, 114, 115]

/-- The byte string b"SPHINCS+_wots". -/
def bWotsAddr : List Nat := [83, 80, 72, 73, 78, 67, 83, 43, 95, 119, 111, 116, 115]

variable (p : Params) (Hf : List Nat → Nat → List Nat)

/-- SPHINCSPlus._hash with an explicit output length: the injected
hash primitive (shake_256(data).digest(m)). -/
def hashN (data : List Nat) (m : Nat) : List Nat := Hf data m

/-- SPHINCSPlus._prf with msg=None: _hash(key + addr). -/
def prf (key addr : List Nat) : List Nat := hashN Hf (key ++ addr) p.n

/-- SPHINCSPlus._prf with a message: _hash(key + addr + msg). -/
def prfM (key addr msg : List Nat) : List Nat := hashN Hf (key ++ addr ++ msg) p.n

/-- SPHINCSPlus._h_msg: _hash(r + pk_seed + pk_root + msg, message_digest_len). -/
def h_msg (r pkSeed pkRoot msg : List Nat) : List Nat :=
  hashN Hf (r ++ pkSeed ++ pkRoot ++ msg) (message_digest_len p)

/-- Python bytes(a ^ b for a, b in zip(x, mask)). -/
def xorZip (x mask : List Nat) : List Nat := List.zipWith (fun a b => a ^^^ b) x mask

/-- SPHINCSPlus._thash: tweakable node hash, with the robust masking branch. -/
def thash (left right pkSeed addr : List Nat) : List Nat :=
  if p.robust then
    let leftMasked := xorZip left (prf p Hf pkSeed (addr ++ [0]))
    let rightMasked := xorZip right (prf p Hf pkSeed (addr ++ [1]))
    hashN Hf (pkSeed ++ addr ++ leftMasked ++ rightMasked) p.n
  else
    hashN Hf (pkSeed ++ addr ++ left ++ right) p.n

/-- SPHINCSPlus._f: tweakable chain-step hash, with the robust masking branch. -/
def f (inData pkSeed addr : List Nat) : List Nat :=
  if p.robust then
    let masked := xorZip inData (prf p Hf pkSeed (addr ++ [0]))
    hashN Hf (pkSeed ++ addr ++ masked) p.n
  else
    hashN Hf (pkSeed ++ addr ++ inData) p.n

/-- The loop body of SPHINCSPlus._chain: out = f(out, pk_seed, addr + j.to_bytes(1))
for j in range(i, i + steps). -/
def chainRun (x : List Nat) (i steps : Nat) (pkSeed addr : List Nat) : List Nat :=
  (List.range' i steps).foldl (fun out j => f p Hf out pkSeed (addr ++ natToBytes 1 j)) x

/-- SPHINCSPlus._chain: returns x when steps == 0, raises (none) when
i + steps > w, otherwise iterates _f. -/
def chain (x : List Nat) (i steps : Nat) (pkSeed addr : List Nat) : Option (List Nat) :=
  if steps = 0 then some x
  else if i + steps > p.w then none
  else some (chainRun p Hf x i steps pkSeed addr)

/-- Independent recursive formulation of applying the chain-step hash
exactly `steps` times starting at position `i` (used to state what the
chain loop computes). -/
def fIter (i : Nat) (steps : Nat) (x pkSeed addr : List Nat) : List Nat :=
  match steps with
  | 0 => x
  | s + 1 => fIter (i + 1) s (f p Hf x pkSeed (addr ++ natToBytes 1 i)) pkSeed addr

/-- Collect the results of a fallible computation over a list, stopping
at the first failure (the shape of a Python loop that may raise). -/
def collectSome {α β : Type} (g : α → Option β) : List α → Option (List β)
  | [] => some []
  | a :: l =>
    match g a with
    | none => none
    | some b => Option.map (fun bs => b :: bs) (collectSome g l)

/-- SPHINCSPlus._wots_sk_gen: one PRF call per chain index. -/
def wots_sk_gen (skSeed addr : List Nat) : List (List Nat) :=
  (List.range (wots_len p)).map (fun i => prf p Hf skSeed (addr ++ natToBytes 2 i))

/-- SPHINCSPlus._base_w: decompose the message integer into wots_len1
digits of wots_logw bits, most significant first. -/
def base_w (msg : List Nat) : List Nat :=
  let bits_per_digit := wots_logw p
  let total_digits := wots_len1 p
  let bit_mask := (1 <<< bits_per_digit) - 1
  let msg_int := bytesToNat msg
  (List.range total_digits).map
    (fun i => (msg_int >>> ((total_digits - 1 - i) * bits_per_digit)) &&& bit_mask)

/-- The WOTS+ checksum: csum += w - 1 - v over the base-w digits. -/
def wots_csum (msg : List Nat) : Nat :=
  (base_w p msg).foldl (fun csum v => csum + (p.w - 1 - v)) 0

/-- The checksum digits: (csum >> (logw * i)) & (w - 1) for i < wots_len2. -/
def csum_base_w (msg : List Nat) : List Nat :=
  (List.range (wots_len2 p)).map (fun i => (wots_csum p msg >>> (wots_logw p * i)) &&& (p.w - 1))

/-- The concatenated digit list `lengths` used by _wots_sign and _wots_pk_from_sig. -/
def wotsLengths (msg : List Nat) : List Nat := base_w p msg ++ csum_base_w p msg

/-- SPHINCSPlus._wots_pk_gen: chain every secret value the full w - 1 steps. -/
def wots_pk_gen (skSeed pkSeed addr : List Nat) : Option (List Nat) :=
  let sk_list := wots_sk_gen p Hf skSeed addr
  Option.map List.flatten (collectSome
    (fun i => chain p Hf (sk_list.getD i []) 0 (p.w - 1) pkSeed (addr ++ natToBytes 2 i))
    (List.range (wots_len p)))

/-- SPHINCSPlus._wots_sign: signature element i = chain(sk_i, 0, lengths[i]). -/
def wots_sign (msg skSeed pkSeed addr : List Nat) : Option (List Nat) :=
  let lengths := wotsLengths p msg
  let sk_list := wots_sk_gen p Hf skSeed addr
  Option.map List.flatten (collectSome
    (fun i => chain p Hf (sk_list.getD i []) 0 (lengths.getD i 0) pkSeed (addr ++ natToBytes 2 i))
    (List.range (wots_len p)))

/-- SPHINCSPlus._wots_pk_from_sig: candidate pk element i =
chain(sig[i*n:(i+1)*n], lengths[i], w - 1 - lengths[i]). -/
def wots_pk_from_sig (sig msg pkSeed addr : List Nat) : Option (List Nat) :=
  let lengths := wotsLengths p msg
  let sig_components := (List.range (wots_len p)).map
    (fun i => pySlice sig (i * p.n) ((i + 1) * p.n))
  Option.map List.flatten (collectSome
    (fun i => chain p Hf (sig_components.getD i []) (lengths.getD i 0)
      (p.w - 1 - lengths.getD i 0) pkSeed (addr ++ natToBytes 2 i))
    (List.range (wots_len p)))

/-- SPHINCSPlus._fors_sk_gen: prf(sk_seed, addr). -/
def fors_sk_gen (skSeed addr : List Nat) : List Nat := prf p Hf skSeed addr

/-- One level of Merkle pairing, the loop `for i in range(0, len(nodes), 2)`
shared by _compute_root and _compute_auth_path: hash the pair starting at
even position 2q with address addr + (2q).to_bytes(2), carrying an odd
tail node through unchanged. -/
def pairUp (pkSeed addr : List Nat) (nodes : List (List Nat)) : List (List Nat) :=
  (List.range ((nodes.length + 1) / 2)).map (fun q =>
    if 2 * q + 1 < nodes.length then
      thash p Hf (nodes.getD (2 * q) []) (nodes.getD (2 * q + 1) []) pkSeed
        (addr ++ natToBytes 2 (2 * q))
    else nodes.getD (2 * q) [])

/-- Structural helper for _compute_root: the fuel bounds the number of
levels; every level at least halves the list, so fuel = nodes.length
always suffices. -/
def compute_root_fuel (pkSeed : List Nat) : Nat → List Nat → List (List Nat) → List Nat
  | _, _, [] => []
  | _, _, [x] => x
  | 0, _, _ :: _ :: _ => []
  | fuel + 1, addr, x :: y :: rest =>
    compute_root_fuel pkSeed fuel (addr ++ bUp) (pairUp p Hf pkSeed addr (x :: y :: rest))

/-- SPHINCSPlus._compute_root: pairwise hash by level, recursing with
addr + b"up".  Python diverges on an empty list; the [] case is
unreachable in the source (every call passes t >= 1 leaves). -/
def compute_root (pkSeed addr : List Nat) (nodes : List (List Nat)) : List Nat :=
  compute_root_fuel p Hf pkSeed nodes.length addr nodes

/-- Structural helper for _compute_auth_path, with the same fuel scheme
as compute_root_fuel. -/
def compute_auth_path_fuel (pkSeed : List Nat) :
    Nat → List Nat → Nat → List (List Nat) → List (List Nat)
  | _, _, _, [] => []
  | _, _, _, [_] => []
  | 0, _, _, _ :: _ :: _ => []
  | fuel + 1, addr, leafIdx, x :: y :: rest =>
    let l := x :: y :: rest
    let authIdx := leafIdx ^^^ 1
    let sib := if authIdx < l.length then l.getD authIdx [] else l.getD leafIdx []
    sib :: compute_auth_path_fuel pkSeed fuel (addr ++ bUp) (leafIdx / 2)
      (pairUp p Hf pkSeed addr l)

/-- SPHINCSPlus._compute_auth_path: record the sibling at leaf_idx ^ 1
on each level, then recurse on the hashed next level with addr + b"up".
Python raises IndexError on an empty list; the [] case is unreachable in
the source (every call passes t >= 1 leaves). -/
def compute_auth_path (pkSeed addr : List Nat) (leafIdx : Nat) (nodes : List (List Nat)) :
    List (List Nat) :=
  compute_auth_path_fuel p Hf pkSeed nodes.length addr leafIdx nodes

/-- SPHINCSPlus._fors_pk_gen: per tree, hash every leaf secret and build
the Merkle root; compress the k roots with one hash. -/
def fors_pk_gen (skSeed pkSeed addr : List Nat) : List Nat :=
  let roots := (List.range p.k).map (fun tree_idx =>
    let treeAddr := addr ++ bTree ++ natToBytes 1 tree_idx
    let leaves := (List.range p.t).map (fun leaf_idx =>
      let leafAddr := treeAddr ++ bLeaf ++ natToBytes 2 leaf_idx
      f p Hf (fors_sk_gen p Hf skSeed leafAddr) pkSeed (leafAddr ++ bHash))
    compute_root p Hf pkSeed (treeAddr ++ bNode) leaves)
  hashN Hf roots.flatten p.n

/-- The bit loop of _fors_sign (with the end_bit clamp to total_bits):
idx = (idx << 1) | bit over bits j in range(start, end), where bit j is
(msg[j / 8] >> (7 - j % 8)) & 1.  After the clamp every access is in
range, so plain indexing is faithful. -/
def chunkFold (msg : List Nat) (s e : Nat) : Nat :=
  (List.range' s (e - s)).foldl
    (fun idx j => (idx <<< 1) ||| ((msg.getD (j / 8) 0 >>> (7 - j % 8)) &&& 1)) 0

/-- The index extraction of _fors_sign: k chunks of fors_height bits,
each reduced mod t, with end_bit clamped to the total bit count. -/
def forsIndices (msg : List Nat) : List Nat :=
  let total_bits := msg.length * 8
  (List.range p.k).map (fun i =>
    let start_bit := i * fors_height p
    let end_bit := min (start_bit + fors_height p) total_bits
    chunkFold msg start_bit end_bit % p.t)

/-- SPHINCSPlus._fors_sign: raises (none) when the digest has fewer than
k * fors_height bits; otherwise per tree emit the selected leaf secret
followed by its authentication path. -/
def fors_sign (msg skSeed pkSeed addr : List Nat) : Option (List Nat) :=
  let total_bits := msg.length * 8
  if p.k * fors_height p > total_bits then none
  else
    let indices := forsIndices p msg
    some (((List.range p.k).map (fun i =>
      let treeAddr := addr ++ bTree ++ natToBytes 1 i
      let leafIdx := indices.getD i 0
      let leafAddr := treeAddr ++ bLeaf ++ natToBytes 2 leafIdx
      let sk := fors_sk_gen p Hf skSeed leafAddr
      let leaves := (List.range p.t).map (fun j =>
        if j = leafIdx then f p Hf sk pkSeed (leafAddr ++ bHash)
        else
          let jAddr := treeAddr ++ bLeaf ++ natToBytes 2 j
          f p Hf (fors_sk_gen p Hf skSeed jAddr) pkSeed (jAddr ++ bHash))
      sk ++ (compute_auth_path p Hf pkSeed (treeAddr ++ bNode) leafIdx leaves).flatten)).flatten)

/-- The bit loop of _fors_verify, which has no clamp: indexing past the
end of msg is a Python IndexError, modelled as none. -/
def bitFoldE (msg : List Nat) : Nat → List Nat → Option Nat
  | acc, [] => some acc
  | acc, j :: js =>
    if hj : j / 8 < msg.length then
      bitFoldE msg ((acc <<< 1) ||| ((msg.get ⟨j / 8, hj⟩ >>> (7 - j % 8)) &&& 1)) js
    else none

/-- SPHINCSPlus._compute_root_from_auth: fold the authentication path
upward; bit i of the leaf index picks the operand order, and the node
address is addr + ((leaf_idx >> i) & ~1).to_bytes(2) (low bit cleared,
written 2 * (m / 2) here).  Note: unlike _compute_root, no b"up" tag is
appended per level. -/
def compute_root_from_auth (leafIdx : Nat) (leaf : List Nat) (authPath : List (List Nat))
    (pkSeed addr : List Nat) : List Nat :=
  authPath.enum.foldl (fun node iAuth =>
    let i := iAuth.1
    let authNode := iAuth.2
    let m := leafIdx >>> i
    let nodeAddr := addr ++ natToBytes 2 (2 * (m / 2))
    if m &&& 1 = 1 then thash p Hf authNode node pkSeed nodeAddr
    else thash p Hf node authNode pkSeed nodeAddr) leaf

/-- SPHINCSPlus._fors_verify: recompute the k indices from the digest
(raising, i.e. none, if a bit index reaches past the digest), recompute
each leaf from the revealed secret at running offset i*(1+fors_height)*n,
fold each authentication path, and hash the concatenated roots. -/
def fors_verify (msg signature pkSeed addr : List Nat) : Option (List Nat) :=
  match collectSome (fun i =>
      let start_bit := i * fors_height p
      let end_bit := (i + 1) * fors_height p
      Option.map (fun v => v % p.t) (bitFoldE msg 0 (List.range' start_bit (end_bit - start_bit))))
    (List.range p.k) with
  | none => none
  | some indices =>
    let roots := (List.range p.k).map (fun i =>
      let treeAddr := addr ++ bTree ++ natToBytes 1 i
      let leafIdx := indices.getD i 0
      let base := i * ((1 + fors_height p) * p.n)
      let sk := pySlice signature base (base + p.n)
      let leafAddr := treeAddr ++ bLeaf ++ natToBytes 2 leafIdx
      let node := f p Hf sk pkSeed (leafAddr ++ bHash)
      let authPath := (List.range (log2 p.t)).map (fun j =>
        pySlice signature (base + p.n + j * p.n) (base + p.n + j * p.n + p.n))
      compute_root_from_auth p Hf leafIdx node authPath pkSeed (treeAddr ++ bNode))
    some (hashN Hf roots.flatten p.n)

/-- SPHINCSPlus.generate_keypair, with the three os.urandom(n) draws
modelled as explicit seed arguments.  Returns (private_key, public_key). -/
def generate_keypair (skSeed skPrf pkSeed : List Nat) : List Nat × List Nat :=
  let addr := bRootAddr
  let root := fors_pk_gen p Hf skSeed pkSeed addr
  let public_key := pkSeed ++ root
  (skSeed ++ skPrf ++ public_key, public_key)

/-- SPHINCSPlus.sign. -/
def sign (message private_key : List Nat) : Option (List Nat) :=
  let skSeed := pySlice private_key 0 p.n
  let skPrf := pySlice private_key p.n (2 * p.n)
  let pkSeed := pySlice private_key (2 * p.n) (3 * p.n)
  let root := pySlice private_key (3 * p.n) (4 * p.n)
  let r := prfM p Hf skPrf bRandomized message
  let message_digest := h_msg p Hf r pkSeed root message
  match fors_sign p Hf message_digest skSeed pkSeed bForsAddr with
  | none => none
  | some fors_sig =>
    match fors_verify p Hf message_digest fors_sig pkSeed bForsAddr with
    | none => none
    | some fors_pk =>
      match wots_sign p Hf fors_pk skSeed pkSeed bWotsAddr with
      | none => none
      | some wots_sig => some (r ++ fors_sig ++ wots_sig)

/-- SPHINCSPlus.verify. -/
def verify (message signature public_key : List Nat) : Option Bool :=
  let pkSeed := pySlice public_key 0 p.n
  let root := pySlice public_key p.n (2 * p.n)
  let r := pySlice signature 0 p.n
  let message_digest := h_msg p Hf r pkSeed root message
  let fors_sig_len := p.k * (1 + log2 p.t) * p.n
  let fors_sig := pySlice signature p.n (p.n + fors_sig_len)
  match fors_verify p Hf message_digest fors_sig pkSeed bForsAddr with
  | none => none
  | some fors_pk =>
    let wots_sig_len := wots_len p * p.n
    let wots_sig := pySlice signature (p.n + fors_sig_len) (p.n + fors_sig_len + wots_sig_len)
    match wots_pk_from_sig p Hf wots_sig fors_pk pkSeed bWotsAddr with
    | none => none
    | some wots_pk =>
      let wots_root := hashN Hf wots_pk p.n
      some (wots_root == root)

/-- A concrete executable stand-in for the hash primitive, used to
evaluate the code at concrete inputs.  Output length is always m. -/
def toyH (data : List Nat) (m : Nat) : List Nat :=
  (List.range m).map (fun i => data.foldl (fun a b => (a * 131 + b + 7) % 251) i)

/-- The concrete parameter set of the spec scenario: the constructor
defaults n=16, h=64, d=8, k=10, w=16, t=64, robust. -/
def P16 : Params := { n := 16, h := 64, d := 8, k := 10, w := 16, t := 64, robust := true }

/-- A small valid parameter set (n=1, k=4, w=4, t=4) whose digest supplies
exactly k * fors_height = 8 bits. -/
def PW : Params := { n := 1, h := 8, d := 4, k := 4, w := 4, t := 4, robust := false }

/-- A small parameter set with a single FORS tree of height 2. -/
def PF : Params := { n := 1, h := 8, d := 4, k := 1, w := 16, t := 4, robust := true }

/-- The message "abc". -/
def msgAbc : List Nat := [97, 98, 99]

/-- A concrete 4n-byte private key for P16. -/
def skP16 : List Nat := List.replicate 64 2

/-- A zero signature of the derived P16 total length 16 + 10*7*16 + 35*16. -/
def sigZeros : List Nat := List.replicate 1696 0

/-- A zero public key of the derived P16 length 2n = 32. -/
def pkZeros : List Nat := List.replicate 32 0

/-- A concrete 4-byte private key for PW (n = 1). -/
def privW : List Nat := [3, 1, 4, 1]

/-- A concrete one-byte message for PW. -/
def msgW : List Nat := [42]

/-- The signature produced by sign PW toyH msgW privW (20 bytes:
n + k*(1+fors_height)*n + wots_len*n = 1 + 12 + 7). -/
def sigW : List Nat :=
  [136, 22, 58, 105, 175, 223, 221, 78, 155, 73, 231, 69, 189, 179, 155, 117, 39, 214, 227, 185]

/-! ## Helper lemmas -/

theorem toyH_length : ∀ data m, (toyH data m).length = m := by
  intro data m
  simp [toyH]

theorem f_length (hH : ∀ data m, (Hf data m).length = m) (x pkSeed addr : List Nat) :
    (f p Hf x pkSeed addr).length = p.n := by
  unfold f
  split <;> simp [hashN, hH]

theorem prf_length (hH : ∀ data m, (Hf data m).length = m) (key addr : List Nat) :
    (prf p Hf key addr).length = p.n := by
  simp [prf, hashN, hH]

theorem prfM_length (hH : ∀ data m, (Hf data m).length = m) (key addr msg : List Nat) :
    (prfM p Hf key addr msg).length = p.n := by
  simp [prfM, hashN, hH]

theorem thash_length (hH : ∀ data m, (Hf data m).length = m) (l r pkSeed addr : List Nat) :
    (thash p Hf l r pkSeed addr).length = p.n := by
  unfold thash
  split <;> simp [hashN, hH]

theorem chainRun_zero (x : List Nat) (i : Nat) (pkSeed addr : List Nat) :
    chainRun p Hf x i 0 pkSeed addr = x := rfl

theorem chainRun_succ (x : List Nat) (i s : Nat) (pkSeed addr : List Nat) :
    chainRun p Hf x i (s + 1) pkSeed addr =
      chainRun p Hf (f p Hf x pkSeed (addr ++ natToBytes 1 i)) (i + 1) s pkSeed addr := by
  simp [chainRun, List.range'_succ]

theorem chainRun_add (x : List Nat) (i a b : Nat) (pkSeed addr : List Nat) :
    chainRun p Hf (chainRun p Hf x i a pkSeed addr) (i + a) b pkSeed addr =
      chainRun p Hf x i (a + b) pkSeed addr := by
  unfold chainRun
  rw [← List.foldl_append]
  have hr := List.range'_append i a b 1
  simp only [Nat.one_mul] at hr
  rw [hr, Nat.add_comm b a]

theorem chainRun_length (hH : ∀ data m, (Hf data m).length = m) (x : List Nat) (i s : Nat)
    (pkSeed addr : List Nat) :
    (chainRun p Hf x i s pkSeed addr).length = if s = 0 then x.length else p.n := by
  induction s generalizing i x with
  | zero => simp [chainRun_zero]
  | succ s ih =>
    rw [chainRun_succ]
    rw [ih]
    split
    · simp [f_length p Hf hH]
    · rfl

theorem chain_eq_some_of_le (x : List Nat) (i steps : Nat) (pkSeed addr : List Nat)
    (hle : i + steps ≤ p.w) :
    chain p Hf x i steps pkSeed addr = some (chainRun p Hf x i steps pkSeed addr) := by
  unfold chain
  rcases Nat.eq_zero_or_pos steps with hz | hpos
  · subst hz
    simp [chainRun_zero]
  · have : ¬ (i + steps > p.w) := Nat.not_lt.mpr hle
    simp [Nat.pos_iff_ne_zero.mp hpos, this]

theorem chainRun_eq_fIter (x : List Nat) (i steps : Nat) (pkSeed addr : List Nat) :
    chainRun p Hf x i steps pkSeed addr = fIter p Hf i steps x pkSeed addr := by
  induction steps generalizing i x with
  | zero => rfl
  | succ s ih =>
    rw [chainRun_succ]
    rw [ih]
    rfl

theorem collectSome_eq_map {α β : Type} (g : α → Option β) (gg : α → β) (l : List α)
    (hg : ∀ a ∈ l, g a = some (gg a)) :
    collectSome g l = some (l.map gg) := by
  induction l with
  | nil => rfl
  | cons a l ih =>
    have ha := hg a (List.mem_cons_self a l)
    have hl := ih (fun b hb => hg b (List.mem_cons_of_mem a hb))
    simp [collectSome, ha, hl]

theorem collectSome_some {α β : Type} (g : α → Option β) (l : List α) (rs : List β)
    (h : collectSome g l = some rs) :
    rs.length = l.length ∧ ∀ r ∈ rs, ∃ a ∈ l, g a = some r := by
  induction l generalizing rs with
  | nil =>
    simp [collectSome] at h
    subst h
    simp
  | cons a l ih =>
    unfold collectSome at h
    cases hga : g a with
    | none => rw [hga] at h; simp at h
    | some b =>
      rw [hga] at h
      cases hcl : collectSome g l with
      | none => rw [hcl] at h; simp at h
      | some bs =>
        rw [hcl] at h
        simp at h
        obtain ⟨hlen, hmem⟩ := ih bs hcl
        subst h
        constructor
        · simp [hlen]
        · intro r hr
          rcases List.mem_cons.mp hr with hrb | hrbs
          · exact ⟨a, List.mem_cons_self a l, by rw [hga, hrb]⟩
          · obtain ⟨c, hc, hgc⟩ := hmem r hrbs
            exact ⟨c, List.mem_cons_of_mem a hc, hgc⟩

theorem getD_map_range {β : Type} (g : Nat → β) (n i : Nat) (d : β) (hi : i < n) :
    ((List.range n).map g).getD i d = g i := by
  rw [List.getD_eq_getElem?_getD, List.getElem?_map, List.getElem?_range hi]
  rfl

theorem flatten_length_const {α : Type} (L : List (List α)) (nn : Nat)
    (h : ∀ x ∈ L, x.length = nn) : L.flatten.length = L.length * nn := by
  induction L with
  | nil => simp
  | cons a L ih =>
    have ha := h a (List.mem_cons_self a L)
    have hL := ih (fun b hb => h b (List.mem_cons_of_mem a hb))
    simp [ha, hL, Nat.succ_mul, Nat.add_comm]

theorem pySlice_flatten (L : List (List Nat)) (nn : Nat)
    (h : ∀ x ∈ L, x.length = nn) (i : Nat) (hi : i < L.length) :
    pySlice L.flatten (i * nn) ((i + 1) * nn) = L.getD i [] := by
  induction L generalizing i with
  | nil => simp at hi
  | cons a L ih =>
    have ha := h a (List.mem_cons_self a L)
    cases i with
    | zero =>
      have h1 : (0 + 1) * nn = a.length := by rw [ha]; ring
      simp only [List.flatten_cons, pySlice, Nat.zero_mul, List.drop_zero, h1, List.take_left]
      rfl
    | succ j =>
      have hj : j < L.length := by simpa using hi
      have hL := ih (fun b hb => h b (List.mem_cons_of_mem a hb)) j hj
      have h1 : (j + 1) * nn = a.length + j * nn := by rw [ha]; ring
      have h2 : (j + 1 + 1) * nn = a.length + (j + 1) * nn := by rw [ha]; ring
      simp only [List.flatten_cons, pySlice] at hL ⊢
      rw [h2, List.take_append, h1, List.drop_append, List.getD_cons_succ]
      rw [h1] at hL
      exact hL

theorem pySlice_append_of_le (l e : List Nat) (a b : Nat) (hb : b ≤ l.length) :
    pySlice (l ++ e) a b = pySlice l a b := by
  simp [pySlice, List.take_append_of_le_length hb]

theorem pySlice_zero_take (l r : List Nat) (n : Nat) (hn : l.length = n) :
    pySlice (l ++ r) 0 n = l := by
  simp only [pySlice, List.drop_zero, ← hn, List.take_left]

/-! ## Claim theorems -/

/-- C4.  The code computes message_digest_len with Python int(), i.e.
floor(k * fors_height / 8), not ceil: at the constructor defaults
(n=16, h=64, d=8, k=10, w=16, t=64) it is 7, while ceil(60 / 8) = 8,
and 7 * 8 = 56 < 60 = k * fors_height, so the digest does NOT supply
enough bits for FORS index extraction. -/
theorem c4_message_digest_len_is_floor_not_ceil :
    message_digest_len P16 = 7 ∧
    message_digest_len P16 ≠ (P16.k * fors_height P16 + 7) / 8 ∧
    message_digest_len P16 * 8 < P16.k * fors_height P16 := by decide

set_option maxRecDepth 400000 in
/-- C1.  The concrete scenario fails: with the default parameters
n=16, w=16, k=10, t=64 the signing path raises (the 7-byte message
digest supplies 56 < 60 bits, so _fors_sign raises ValueError), hence
verify never returns true on the message "abc"; and even on a small
parameter set whose digest supplies enough bits (PW), verify of a
freshly generated signature under a freshly generated keypair returns
false, because verify compares hash(wots_pk) against the key root that
generate_keypair derived as fors_pk_gen under the unrelated address
b"SPHINCS+_root". -/
theorem c1_roundtrip_fails :
    sign P16 toyH msgAbc skP16 = none ∧
    (sign PW toyH [9] (generate_keypair PW toyH [5] [6] [7]).1).bind
      (fun s => verify PW toyH [9] s (generate_keypair PW toyH [5] [6] [7]).2) = some false := by
  decide

set_option maxRecDepth 400000 in
/-- C2.  The FORS round trip fails: with k=1, t=4 (fors_height 2),
verifying a fresh FORS signature of the digest [171] does not reproduce
the directly generated FORS public key, because _compute_root_from_auth
omits the b"up" suffix that _compute_root appends to the node address
at each level above the leaves. -/
theorem c2_fors_roundtrip_fails :
    (fors_sign PF toyH [171] [3] [5] [65]).bind
      (fun s => fors_verify PF toyH [171] s [5] [65]) ≠
      some (fors_pk_gen PF toyH [3] [5] [65]) := by decide

set_option maxRecDepth 400000 in
/-- C5.  verify raises instead of returning a boolean: at the default
parameters (P16), for the message "abc", a public key of the derived
2n = 32 bytes and a signature of the derived 1696 bytes, _fors_verify
indexes byte 7 of the 7-byte message digest and raises IndexError
(modelled as none). -/
theorem c5_verify_raises_at_default_params :
    verify P16 toyH msgAbc sigZeros pkZeros = none := by decide

set_option maxRecDepth 400000 in
/-- C6 counterexample.  The claim says chain fails exactly when
start + steps > w - 1; but at start=15, steps=1, w=16 we have
15 + 1 = 16 > 15 = w - 1 and chain succeeds (the code only raises when
start + steps > w). -/
theorem c6_chain_bound_counterexample :
    15 + 1 > P16.w - 1 ∧
    chain P16 toyH (List.replicate 16 3) 15 1 [1] [2] ≠ none := by decide

/-- C6 amended.  chain applies the chain-step hash f exactly steps
times starting at position start, and fails with a range error exactly
when steps is nonzero and start + steps > w (not w - 1). -/
theorem c6_chain_spec_amended (x : List Nat) (i steps : Nat) (pkSeed addr : List Nat) :
    chain p Hf x i steps pkSeed addr =
      if steps ≠ 0 ∧ i + steps > p.w then none
      else some (fIter p Hf i steps x pkSeed addr) := by
  unfold chain
  rcases Nat.eq_zero_or_pos steps with hz | hpos
  · subst hz
    simp [fIter]
  · have hne := Nat.pos_iff_ne_zero.mp hpos
    by_cases hgt : i + steps > p.w
    · simp [hne, hgt]
    · simp [hne, hgt, chainRun_eq_fIter]

theorem wotsLengths_length (msg : List Nat) :
    (wotsLengths p msg).length = wots_len p := by
  simp [wotsLengths, base_w, csum_base_w, wots_len]

theorem wotsLengths_le (hw : p.w = 2 ^ wots_logw p) (msg : List Nat) :
    ∀ v ∈ wotsLengths p msg, v ≤ p.w - 1 := by
  intro v hv
  rcases List.mem_append.mp hv with h1 | h2
  · simp only [base_w] at h1
    obtain ⟨i, hi, rfl⟩ := List.mem_map.mp h1
    have hmask : (1 <<< wots_logw p) - 1 = p.w - 1 := by rw [Nat.one_shiftLeft, ← hw]
    calc (bytesToNat msg >>> ((wots_len1 p - 1 - i) * wots_logw p)) &&& ((1 <<< wots_logw p) - 1)
        ≤ (1 <<< wots_logw p) - 1 := Nat.and_le_right
      _ = p.w - 1 := hmask
  · simp only [csum_base_w] at h2
    obtain ⟨i, hi, rfl⟩ := List.mem_map.mp h2
    exact Nat.and_le_right

theorem wotsLengths_getD_le (hw : p.w = 2 ^ wots_logw p) (msg : List Nat) (i : Nat) :
    (wotsLengths p msg).getD i 0 ≤ p.w - 1 := by
  by_cases hi : i < (wotsLengths p msg).length
  · rw [List.getD_eq_getElem _ _ hi]
    exact wotsLengths_le p hw msg _ (List.getElem_mem hi)
  · rw [List.getD_eq_getElem?_getD, List.getElem?_eq_none (Nat.le_of_not_lt hi)]
    exact Nat.zero_le _

theorem wots_sk_gen_getD (skSeed addr : List Nat) (i : Nat) (hi : i < wots_len p) :
    (wots_sk_gen p Hf skSeed addr).getD i [] = prf p Hf skSeed (addr ++ natToBytes 2 i) := by
  unfold wots_sk_gen
  exact getD_map_range _ _ i [] hi

/-- C3.  WOTS+ round trip: deriving the public key from a fresh
signature reproduces the directly generated public key, for every
sk_seed, pk_seed, addr and every n-byte digest, for any parameter set
with w = 2^wots_logw (w a power of two, as in every constructed
parameter set of the source) and any hash primitive returning digests
of the requested length. -/
theorem c3_wots_roundtrip (hw : p.w = 2 ^ wots_logw p)
    (hH : ∀ data m, (Hf data m).length = m)
    (skSeed pkSeed addr msg : List Nat) (hmsg : msg.length = p.n) :
    (wots_sign p Hf msg skSeed pkSeed addr).bind
      (fun s => wots_pk_from_sig p Hf s msg pkSeed addr) =
    wots_pk_gen p Hf skSeed pkSeed addr := by
  have hLle : ∀ i, (wotsLengths p msg).getD i 0 ≤ p.w - 1 := wotsLengths_getD_le p hw msg
  -- the signing-side chain outputs, one per chain index
  have hcol1 : collectSome (fun i => chain p Hf ((wots_sk_gen p Hf skSeed addr).getD i []) 0
        ((wotsLengths p msg).getD i 0) pkSeed (addr ++ natToBytes 2 i))
        (List.range (wots_len p)) =
      some ((List.range (wots_len p)).map (fun i =>
        chainRun p Hf ((wots_sk_gen p Hf skSeed addr).getD i []) 0
          ((wotsLengths p msg).getD i 0) pkSeed (addr ++ natToBytes 2 i))) := by
    refine collectSome_eq_map _ _ _ (fun a _ => ?_)
    refine chain_eq_some_of_le p Hf _ _ _ _ _ ?_
    have := hLle a
    omega
  have hsign : wots_sign p Hf msg skSeed pkSeed addr =
      some (((List.range (wots_len p)).map (fun i =>
        chainRun p Hf ((wots_sk_gen p Hf skSeed addr).getD i []) 0
          ((wotsLengths p msg).getD i 0) pkSeed (addr ++ natToBytes 2 i))).flatten) := by
    show Option.map List.flatten (collectSome _ _) = _
    rw [hcol1]
    rfl
  rw [hsign, Option.some_bind]
  -- every signature component has length n
  have hlen1 : ∀ x ∈ (List.range (wots_len p)).map (fun i =>
        chainRun p Hf ((wots_sk_gen p Hf skSeed addr).getD i []) 0
          ((wotsLengths p msg).getD i 0) pkSeed (addr ++ natToBytes 2 i)), x.length = p.n := by
    intro x hx
    obtain ⟨i, hi, rfl⟩ := List.mem_map.mp hx
    have hiw : i < wots_len p := List.mem_range.mp hi
    rw [chainRun_length p Hf hH]
    split
    · rw [wots_sk_gen_getD p Hf skSeed addr i hiw]
      exact prf_length p Hf hH _ _
    · rfl
  -- slicing the flattened signature recovers component i
  have hcomps : ∀ i, i < wots_len p →
      pySlice (((List.range (wots_len p)).map (fun i =>
        chainRun p Hf ((wots_sk_gen p Hf skSeed addr).getD i []) 0
          ((wotsLengths p msg).getD i 0) pkSeed (addr ++ natToBytes 2 i))).flatten)
        (i * p.n) ((i + 1) * p.n) =
      chainRun p Hf ((wots_sk_gen p Hf skSeed addr).getD i []) 0
        ((wotsLengths p msg).getD i 0) pkSeed (addr ++ natToBytes 2 i) := by
    intro i hi
    rw [pySlice_flatten _ p.n hlen1 i (by simpa using hi)]
    exact getD_map_range _ _ i [] hi
  -- the verification side composes each chain to the full w - 1 steps
  have hcol2 : collectSome (fun i => chain p Hf
        (((List.range (wots_len p)).map (fun j =>
          pySlice (((List.range (wots_len p)).map (fun i =>
            chainRun p Hf ((wots_sk_gen p Hf skSeed addr).getD i []) 0
              ((wotsLengths p msg).getD i 0) pkSeed (addr ++ natToBytes 2 i))).flatten)
            (j * p.n) ((j + 1) * p.n))).getD i [])
        ((wotsLengths p msg).getD i 0) (p.w - 1 - (wotsLengths p msg).getD i 0)
        pkSeed (addr ++ natToBytes 2 i)) (List.range (wots_len p)) =
      some ((List.range (wots_len p)).map (fun i =>
        chainRun p Hf ((wots_sk_gen p Hf skSeed addr).getD i []) 0 (p.w - 1)
          pkSeed (addr ++ natToBytes 2 i))) := by
    refine collectSome_eq_map _ _ _ (fun a ha => ?_)
    have haw : a < wots_len p := List.mem_range.mp ha
    rw [getD_map_range _ _ a [] haw, hcomps a haw]
    have hle2 : (wotsLengths p msg).getD a 0 + (p.w - 1 - (wotsLengths p msg).getD a 0) ≤ p.w := by
      have := hLle a
      omega
    rw [chain_eq_some_of_le p Hf _ _ _ _ _ hle2]
    have hcomp := chainRun_add p Hf ((wots_sk_gen p Hf skSeed addr).getD a []) 0
      ((wotsLengths p msg).getD a 0) (p.w - 1 - (wotsLengths p msg).getD a 0)
      pkSeed (addr ++ natToBytes 2 a)
    rw [Nat.zero_add] at hcomp
    rw [hcomp, Nat.add_sub_cancel' (hLle a)]
  have hfromsig : wots_pk_from_sig p Hf
      (((List.range (wots_len p)).map (fun i =>
        chainRun p Hf ((wots_sk_gen p Hf skSeed addr).getD i []) 0
          ((wotsLengths p msg).getD i 0) pkSeed (addr ++ natToBytes 2 i))).flatten)
      msg pkSeed addr =
      some (((List.range (wots_len p)).map (fun i =>
        chainRun p Hf ((wots_sk_gen p Hf skSeed addr).getD i []) 0 (p.w - 1)
          pkSeed (addr ++ natToBytes 2 i))).flatten) := by
    show Option.map List.flatten (collectSome _ _) = _
    rw [hcol2]
    rfl
  rw [hfromsig]
  -- the key-generation side
  have hcol3 : collectSome (fun i => chain p Hf ((wots_sk_gen p Hf skSeed addr).getD i []) 0
        (p.w - 1) pkSeed (addr ++ natToBytes 2 i)) (List.range (wots_len p)) =
      some ((List.range (wots_len p)).map (fun i =>
        chainRun p Hf ((wots_sk_gen p Hf skSeed addr).getD i []) 0 (p.w - 1)
          pkSeed (addr ++ natToBytes 2 i))) := by
    refine collectSome_eq_map _ _ _ (fun a _ => ?_)
    exact chain_eq_some_of_le p Hf _ _ _ _ _ (by omega)
  have hpkgen : wots_pk_gen p Hf skSeed pkSeed addr =
      some (((List.range (wots_len p)).map (fun i =>
        chainRun p Hf ((wots_sk_gen p Hf skSeed addr).getD i []) 0 (p.w - 1)
          pkSeed (addr ++ natToBytes 2 i))).flatten) := by
    show Option.map List.flatten (collectSome _ _) = _
    rw [hcol3]
    rfl
  rw [hpkgen]

/-- C3 witness: the round trip evaluated at the concrete parameter set
PW with the concrete hash toyH, seeds [3], [5], address [65] and the
one-byte digest msgW. -/
theorem c3_wots_roundtrip_witness :
    PW.w = 2 ^ wots_logw PW ∧ msgW.length = PW.n ∧
    (wots_sign PW toyH msgW [3] [5] [65]).bind
      (fun s => wots_pk_from_sig PW toyH s msgW [5] [65]) =
    wots_pk_gen PW toyH [3] [5] [65] :=
  ⟨by decide, by decide,
    c3_wots_roundtrip PW toyH (by decide) toyH_length [3] [5] [65] msgW (by decide)⟩

theorem fors_sk_gen_length (hH : ∀ data m, (Hf data m).length = m)
    (skSeed addr : List Nat) : (fors_sk_gen p Hf skSeed addr).length = p.n :=
  prf_length p Hf hH skSeed addr

theorem chain_some_length (hH : ∀ data m, (Hf data m).length = m)
    (x : List Nat) (i steps : Nat) (pkSeed addr y : List Nat)
    (hx : x.length = p.n) (hc : chain p Hf x i steps pkSeed addr = some y) :
    y.length = p.n := by
  unfold chain at hc
  split at hc
  · cases hc
    exact hx
  · split at hc
    · cases hc
    · cases hc
      rw [chainRun_length p Hf hH]
      split
      · exact hx
      · rfl

theorem sign_some_decomp (msg priv s : List Nat) (hs : sign p Hf msg priv = some s) :
    ∃ fs ws,
      fors_sign p Hf
          (h_msg p Hf (prfM p Hf (pySlice priv p.n (2 * p.n)) bRandomized msg)
            (pySlice priv (2 * p.n) (3 * p.n)) (pySlice priv (3 * p.n) (4 * p.n)) msg)
          (pySlice priv 0 p.n) (pySlice priv (2 * p.n) (3 * p.n)) bForsAddr = some fs ∧
      (∃ fpk, fors_verify p Hf
          (h_msg p Hf (prfM p Hf (pySlice priv p.n (2 * p.n)) bRandomized msg)
            (pySlice priv (2 * p.n) (3 * p.n)) (pySlice priv (3 * p.n) (4 * p.n)) msg)
          fs (pySlice priv (2 * p.n) (3 * p.n)) bForsAddr = some fpk ∧
        wots_sign p Hf fpk (pySlice priv 0 p.n) (pySlice priv (2 * p.n) (3 * p.n))
          bWotsAddr = some ws) ∧
      s = prfM p Hf (pySlice priv p.n (2 * p.n)) bRandomized msg ++ fs ++ ws := by
  simp only [sign] at hs
  split at hs
  · cases hs
  next fors_sig hfs =>
    split at hs
    · cases hs
    next fors_pk hfpk =>
      split at hs
      · cases hs
      next wots_sig hws =>
        cases hs
        exact ⟨fors_sig, wots_sig, hfs, ⟨fors_pk, hfpk, hws⟩, rfl⟩

theorem pairUp_length (pkSeed addr : List Nat) (nodes : List (List Nat)) :
    (pairUp p Hf pkSeed addr nodes).length = (nodes.length + 1) / 2 := by
  simp [pairUp]

theorem pairUp_forall_length (hH : ∀ data m, (Hf data m).length = m)
    (pkSeed addr : List Nat) (nodes : List (List Nat))
    (hn : ∀ x ∈ nodes, x.length = p.n) :
    ∀ x ∈ pairUp p Hf pkSeed addr nodes, x.length = p.n := by
  intro x hx
  simp only [pairUp] at hx
  obtain ⟨q, hq, rfl⟩ := List.mem_map.mp hx
  have hq2 : q < (nodes.length + 1) / 2 := List.mem_range.mp hq
  split
  · exact thash_length p Hf hH _ _ _ _
  next hodd =>
    have h2 : 2 * q < nodes.length := by omega
    rw [List.getD_eq_getElem _ _ h2]
    exact hn _ (List.getElem_mem h2)

theorem compute_auth_path_fuel_spec (hH : ∀ data m, (Hf data m).length = m)
    (pkSeed : List Nat) (m : Nat) :
    ∀ fuel addr leafIdx nodes,
      nodes.length = 2 ^ m → m ≤ fuel → leafIdx < 2 ^ m →
      (∀ x ∈ nodes, x.length = p.n) →
      (compute_auth_path_fuel p Hf pkSeed fuel addr leafIdx nodes).length = m ∧
      (∀ x ∈ compute_auth_path_fuel p Hf pkSeed fuel addr leafIdx nodes, x.length = p.n) := by
  induction m with
  | zero =>
    intro fuel addr leafIdx nodes hlen hf hleaf hn
    match nodes, hlen with
    | [x], _ =>
      cases fuel <;> exact ⟨rfl, by intro x hx; cases hx⟩
  | succ m ih =>
    intro fuel addr leafIdx nodes hlen hf hleaf hn
    have hpow : 2 ^ (m + 1) = 2 ^ m * 2 := by rw [Nat.pow_succ]
    have hone : 1 ≤ 2 ^ m := Nat.one_le_two_pow
    match nodes with
    | [] => rw [List.length_nil] at hlen; omega
    | [x] =>
      rw [List.length_singleton] at hlen
      omega
    | x :: y :: rest =>
      obtain ⟨fuel, rfl⟩ : ∃ g, fuel = g + 1 := ⟨fuel - 1, by omega⟩
      have hrec := ih fuel (addr ++ bUp) (leafIdx / 2)
        (pairUp p Hf pkSeed addr (x :: y :: rest))
        (by rw [pairUp_length, hlen]; omega)
        (by omega)
        (by omega)
        (pairUp_forall_length p Hf hH pkSeed addr _ hn)
      have hxor : leafIdx ^^^ 1 < (x :: y :: rest).length := by
        rw [hlen]
        exact Nat.xor_lt_two_pow hleaf (by omega)
      constructor
      · show (_ :: _).length = m + 1
        rw [List.length_cons, hrec.1]
      · intro z hz
        rcases List.mem_cons.mp hz with hz1 | hz2
        · rw [hz1]
          simp only [hxor, if_pos]
          rw [List.getD_eq_getElem _ _ hxor]
          exact hn _ (List.getElem_mem hxor)
        · exact hrec.2 z hz2

theorem compute_auth_path_spec (hH : ∀ data m, (Hf data m).length = m)
    (pkSeed addr : List Nat) (m leafIdx : Nat) (nodes : List (List Nat))
    (hlen : nodes.length = 2 ^ m) (hleaf : leafIdx < 2 ^ m)
    (hn : ∀ x ∈ nodes, x.length = p.n) :
    (compute_auth_path p Hf pkSeed addr leafIdx nodes).length = m ∧
    (∀ x ∈ compute_auth_path p Hf pkSeed addr leafIdx nodes, x.length = p.n) := by
  unfold compute_auth_path
  refine compute_auth_path_fuel_spec p Hf hH pkSeed m nodes.length addr leafIdx nodes hlen ?_ hleaf hn
  rw [hlen]
  exact Nat.le_of_lt (Nat.lt_two_pow m)

theorem forsIndices_getD_lt (msg : List Nat) (i : Nat) (hi : i < p.k) (ht : 0 < p.t) :
    (forsIndices p msg).getD i 0 < p.t := by
  simp only [forsIndices]
  rw [getD_map_range _ _ i 0 hi]
  exact Nat.mod_lt _ ht

theorem fors_sign_some_length (hH : ∀ data m, (Hf data m).length = m)
    (ht : p.t = 2 ^ fors_height p)
    (msg skSeed pkSeed addr fs : List Nat)
    (hfs : fors_sign p Hf msg skSeed pkSeed addr = some fs) :
    fs.length = p.k * ((1 + fors_height p) * p.n) := by
  have htpos : 0 < p.t := by rw [ht]; exact Nat.one_le_two_pow
  simp only [fors_sign] at hfs
  split at hfs
  · cases hfs
  · cases hfs
    rw [flatten_length_const _ ((1 + fors_height p) * p.n) ?hall]
    · simp
    case hall =>
      intro x hx
      obtain ⟨i, hi, rfl⟩ := List.mem_map.mp hx
      have hik : i < p.k := List.mem_range.mp hi
      have hleaf : (forsIndices p msg).getD i 0 < p.t := forsIndices_getD_lt p msg i hik htpos
      have hleaves : ∀ z ∈ (List.range p.t).map (fun j =>
          if j = (forsIndices p msg).getD i 0 then
            f p Hf (fors_sk_gen p Hf skSeed
              (addr ++ bTree ++ natToBytes 1 i ++ bLeaf ++
                natToBytes 2 ((forsIndices p msg).getD i 0)))
              pkSeed (addr ++ bTree ++ natToBytes 1 i ++ bLeaf ++
                natToBytes 2 ((forsIndices p msg).getD i 0) ++ bHash)
          else
            f p Hf (fors_sk_gen p Hf skSeed
              (addr ++ bTree ++ natToBytes 1 i ++ bLeaf ++ natToBytes 2 j))
              pkSeed (addr ++ bTree ++ natToBytes 1 i ++ bLeaf ++ natToBytes 2 j ++ bHash)),
          z.length = p.n := by
        intro z hz
        obtain ⟨j, hj, rfl⟩ := List.mem_map.mp hz
        split
        · exact f_length p Hf hH _ _ _
        · exact f_length p Hf hH _ _ _
      have hap := compute_auth_path_spec p Hf hH pkSeed
        (addr ++ bTree ++ natToBytes 1 i ++ bNode) (fors_height p)
        ((forsIndices p msg).getD i 0) _
        (by rw [List.length_map, List.length_range]; exact ht)
        (by rw [← ht]; exact hleaf) hleaves
      rw [List.length_append]
      rw [fors_sk_gen_length p Hf hH]
      rw [flatten_length_const _ p.n hap.2, hap.1]
      ring

theorem wots_sign_some_length (hH : ∀ data m, (Hf data m).length = m)
    (msg skSeed pkSeed addr ws : List Nat)
    (hws : wots_sign p Hf msg skSeed pkSeed addr = some ws) :
    ws.length = wots_len p * p.n := by
  simp only [wots_sign] at hws
  rw [Option.map_eq_some'] at hws
  obtain ⟨sigs, hcol, hflat⟩ := hws
  obtain ⟨hlen, hmem⟩ := collectSome_some _ _ _ hcol
  rw [← hflat]
  rw [flatten_length_const sigs p.n ?hall]
  · rw [hlen, List.length_range]
  case hall =>
    intro r hr
    obtain ⟨a, ha, hchain⟩ := hmem r hr
    have haw : a < wots_len p := List.mem_range.mp ha
    refine chain_some_length p Hf hH _ _ _ _ _ _ ?_ hchain
    rw [wots_sk_gen_getD p Hf skSeed addr a haw]
    exact prf_length p Hf hH _ _

/-- C8.  Byte layouts: generate_keypair returns a private key of
exactly 4n bytes (sk_seed then sk_prf then pk_seed then root) and a
public key of exactly 2n bytes (pk_seed then root); whenever sign
returns, the signature is exactly n + k*(1+fors_height)*n + wots_len*n
bytes: the n-byte randomizer r = PRF(sk_prf, b"randomized", message)
followed by the FORS part followed by the WOTS part. -/
theorem c8_byte_layouts (hH : ∀ data m, (Hf data m).length = m)
    (ht : p.t = 2 ^ fors_height p)
    (skSeed skPrf pkSeed msg priv s : List Nat)
    (h1 : skSeed.length = p.n) (h2 : skPrf.length = p.n) (h3 : pkSeed.length = p.n)
    (hs : sign p Hf msg priv = some s) :
    (generate_keypair p Hf skSeed skPrf pkSeed).1.length = 4 * p.n ∧
    (generate_keypair p Hf skSeed skPrf pkSeed).2.length = 2 * p.n ∧
    s.length = p.n + p.k * (1 + fors_height p) * p.n + wots_len p * p.n ∧
    ∃ fs ws, s = prfM p Hf (pySlice priv p.n (2 * p.n)) bRandomized msg ++ fs ++ ws ∧
      fs.length = p.k * (1 + fors_height p) * p.n ∧ ws.length = wots_len p * p.n := by
  have hroot : (fors_pk_gen p Hf skSeed pkSeed bRootAddr).length = p.n := by
    simp only [fors_pk_gen, hashN]
    exact hH _ _
  obtain ⟨fs, ws, hfs, ⟨fpk, hfpk, hws⟩, hdecomp⟩ := sign_some_decomp p Hf msg priv s hs
  have hfslen := fors_sign_some_length p Hf hH ht _ _ _ _ _ hfs
  have hwslen := wots_sign_some_length p Hf hH _ _ _ _ _ hws
  have hrlen : (prfM p Hf (pySlice priv p.n (2 * p.n)) bRandomized msg).length = p.n :=
    prfM_length p Hf hH _ _ _
  refine ⟨?_, ?_, ?_, fs, ws, hdecomp, by rw [hfslen]; ring, hwslen⟩
  · simp only [generate_keypair]
    simp [h1, h2, h3, hroot]
    omega
  · simp only [generate_keypair]
    simp [h3, hroot]
    omega
  · rw [hdecomp]
    simp only [List.length_append]
    rw [hrlen, hfslen, hwslen]
    ring

set_option maxRecDepth 1000000 in
/-- C8 witness: the layout theorem evaluated at PW with toyH, concrete
seeds of length n = 1, the concrete message msgW, the concrete private
key privW and its concrete signature sigW. -/
theorem c8_byte_layouts_witness :
    PW.t = 2 ^ fors_height PW ∧ sign PW toyH msgW privW = some sigW ∧
    ((generate_keypair PW toyH [5] [6] [7]).1.length = 4 * PW.n ∧
     (generate_keypair PW toyH [5] [6] [7]).2.length = 2 * PW.n ∧
     sigW.length = PW.n + PW.k * (1 + fors_height PW) * PW.n + wots_len PW * PW.n ∧
     ∃ fs ws, sigW = prfM PW toyH (pySlice privW PW.n (2 * PW.n)) bRandomized msgW ++ fs ++ ws ∧
       fs.length = PW.k * (1 + fors_height PW) * PW.n ∧ ws.length = wots_len PW * PW.n) :=
  ⟨by decide, by decide,
    c8_byte_layouts PW toyH toyH_length (by decide) [5] [6] [7] msgW privW sigW
      (by decide) (by decide) (by decide) (by decide)⟩

/-- C9.  Signing is deterministic: sign is a pure function of
(message, private_key) (the embedding of sign calls no randomness
source), so equal inputs give byte-identical signatures; and the
randomizer r (the first n bytes of the signature) is derived solely
from sk_prf = private_key[n:2n] and the message via the PRF, so two
private keys agreeing on that slice produce the same r. -/
theorem c9_sign_deterministic (hH : ∀ data m, (Hf data m).length = m)
    (msg priv1 priv2 s1 s2 : List Nat)
    (hs1 : sign p Hf msg priv1 = some s1) (hs2 : sign p Hf msg priv2 = some s2) :
    (priv1 = priv2 → s1 = s2) ∧
    (pySlice priv1 p.n (2 * p.n) = pySlice priv2 p.n (2 * p.n) →
      pySlice s1 0 p.n = pySlice s2 0 p.n) := by
  obtain ⟨fs1, ws1, _, _, hd1⟩ := sign_some_decomp p Hf msg priv1 s1 hs1
  obtain ⟨fs2, ws2, _, _, hd2⟩ := sign_some_decomp p Hf msg priv2 s2 hs2
  constructor
  · intro he
    subst he
    rw [hs1] at hs2
    exact Option.some.inj hs2
  · intro hpr
    have e1 : pySlice s1 0 p.n = prfM p Hf (pySlice priv1 p.n (2 * p.n)) bRandomized msg := by
      rw [hd1, List.append_assoc]
      exact pySlice_zero_take _ _ p.n (prfM_length p Hf hH _ _ _)
    have e2 : pySlice s2 0 p.n = prfM p Hf (pySlice priv2 p.n (2 * p.n)) bRandomized msg := by
      rw [hd2, List.append_assoc]
      exact pySlice_zero_take _ _ p.n (prfM_length p Hf hH _ _ _)
    rw [e1, e2, hpr]

set_option maxRecDepth 1000000 in
/-- C9 witness: determinism and the r-derivation evaluated at PW with
toyH on the concrete private key privW and message msgW. -/
theorem c9_sign_deterministic_witness :
    sign PW toyH msgW privW = some sigW ∧
    ((privW = privW → sigW = sigW) ∧
     (pySlice privW PW.n (2 * PW.n) = pySlice privW PW.n (2 * PW.n) →
       pySlice sigW 0 PW.n = pySlice sigW 0 PW.n)) :=
  ⟨by decide,
    c9_sign_deterministic PW toyH toyH_length msgW privW privW sigW sigW
      (by decide) (by decide)⟩

/-- C10.  verify performs no length validation and ignores trailing
bytes: for any public key of length at least 2n and any signature of
length at least n + k*(1+fors_height)*n + wots_len*n, appending
arbitrary extra bytes to either input leaves the result of verify
unchanged (verify reads both inputs only through slices bounded by
those lengths), and no format error is raised because of the extra
bytes. -/
theorem c10_verify_ignores_trailing_bytes (msg pk sig extra1 extra2 : List Nat)
    (hpk : 2 * p.n <= pk.length)
    (hsig : p.n + p.k * (1 + log2 p.t) * p.n + wots_len p * p.n <= sig.length) :
    verify p Hf msg (sig ++ extra1) (pk ++ extra2) = verify p Hf msg sig pk := by
  simp only [verify]
  rw [pySlice_append_of_le pk extra2 0 p.n (by omega),
    pySlice_append_of_le pk extra2 p.n (2 * p.n) hpk,
    pySlice_append_of_le sig extra1 0 p.n (by omega),
    pySlice_append_of_le sig extra1 p.n (p.n + p.k * (1 + log2 p.t) * p.n) (by omega),
    pySlice_append_of_le sig extra1 (p.n + p.k * (1 + log2 p.t) * p.n)
      (p.n + p.k * (1 + log2 p.t) * p.n + wots_len p * p.n) (by omega)]

set_option maxRecDepth 1000000 in
/-- C10 witness: appending trailing bytes to the concrete signature
sigW (exactly the derived total length for PW) and to a 2-byte public
key leaves verify unchanged. -/
theorem c10_verify_ignores_trailing_bytes_witness :
    2 * PW.n <= [5, 9].length ∧
    PW.n + PW.k * (1 + log2 PW.t) * PW.n + wots_len PW * PW.n <= sigW.length ∧
    verify PW toyH msgW (sigW ++ [7]) ([5, 9] ++ [8]) = verify PW toyH msgW sigW [5, 9] :=
  ⟨by decide, by decide,
    c10_verify_ignores_trailing_bytes PW toyH msgW [5, 9] sigW [7] [8]
      (by decide) (by decide)⟩


theorem bytesToNat_aux (l : List Nat) :
    ∀ a, l.foldl (fun x b => x * 256 + b) a = a * 256 ^ l.length + l.foldl (fun x b => x * 256 + b) 0 := by
  induction l with
  | nil => intro a; simp
  | cons b l ih =>
    intro a
    simp only [List.foldl_cons, List.length_cons]
    have h0 : (0 : Nat) * 256 + b = b := by omega
    rw [ih (a * 256 + b), h0, ih b]
    ring

theorem bytesToNat_cons (b : Nat) (l : List Nat) :
    bytesToNat (b :: l) = b * 256 ^ l.length + bytesToNat l := by
  simp only [bytesToNat, List.foldl_cons]
  have h0 : (0 : Nat) * 256 + b = b := by omega
  rw [h0, bytesToNat_aux l b]

theorem bytesToNat_lt (l : List Nat) (hb : ∀ b ∈ l, b < 256) :
    bytesToNat l < 256 ^ l.length := by
  induction l with
  | nil => simp [bytesToNat]
  | cons b l ih =>
    have hbb : b < 256 := hb b (List.mem_cons_self b l)
    have hNr := ih (fun x hx => hb x (List.mem_cons_of_mem b hx))
    rw [bytesToNat_cons]
    calc b * 256 ^ l.length + bytesToNat l < b * 256 ^ l.length + 256 ^ l.length := by omega
      _ = (b + 1) * 256 ^ l.length := by ring
      _ ≤ 256 * 256 ^ l.length := Nat.mul_le_mul_right _ (by omega)
      _ = 256 ^ (b :: l).length := by rw [List.length_cons]; ring

theorem getBit_eq (msg : List Nat) :
    (∀ b ∈ msg, b < 256) → ∀ j, j < msg.length * 8 →
      (msg.getD (j / 8) 0 >>> (7 - j % 8)) &&& 1 =
        bytesToNat msg / 2 ^ (msg.length * 8 - 1 - j) % 2 := by
  induction msg with
  | nil => intro _ j hj; simp at hj
  | cons b l ih =>
    intro hb j hj
    have hbb : b < 256 := hb b (List.mem_cons_self b l)
    have hbl : ∀ x ∈ l, x < 256 := fun x hx => hb x (List.mem_cons_of_mem b hx)
    have hNr : bytesToNat l < 256 ^ l.length := bytesToNat_lt l hbl
    have h256 : (256 : Nat) ^ l.length = 2 ^ (l.length * 8) := by
      rw [show (256 : Nat) = 2 ^ 8 by norm_num, ← Nat.pow_mul, Nat.mul_comm]
    rw [bytesToNat_cons]
    by_cases hj8 : j < 8
    · have hjm : j % 8 = j := Nat.mod_eq_of_lt hj8
      have hjd : j / 8 = 0 := Nat.div_eq_of_lt hj8
      rw [hjd, hjm, List.getD_cons_zero]
      have he : (b :: l).length * 8 - 1 - j = l.length * 8 + (7 - j) := by
        rw [List.length_cons]; omega
      rw [he, h256, Nat.pow_add, ← Nat.div_div_eq_div_mul]
      have hd : (b * 2 ^ (l.length * 8) + bytesToNat l) / 2 ^ (l.length * 8) = b := by
        rw [Nat.mul_comm b, Nat.mul_add_div (Nat.two_pow_pos _)]
        rw [Nat.div_eq_of_lt (by rw [← h256]; exact hNr)]
        omega
      rw [hd, Nat.shiftRight_eq_div_pow, Nat.and_one_is_mod]
    · obtain ⟨j2, rfl⟩ : ∃ j2, j = 8 + j2 := ⟨j - 8, by omega⟩
      have hdiv : (8 + j2) / 8 = j2 / 8 + 1 := by omega
      have hmod : (8 + j2) % 8 = j2 % 8 := by omega
      have hj2 : j2 < l.length * 8 := by
        rw [List.length_cons] at hj; omega
      have he : (b :: l).length * 8 - 1 - (8 + j2) = l.length * 8 - 1 - j2 := by
        rw [List.length_cons]; omega
      rw [hdiv, hmod, List.getD_cons_succ, he]
      have hcalc : ∀ e, e + j2 + 1 = l.length * 8 →
          (b * 256 ^ l.length + bytesToNat l) / 2 ^ e % 2 = bytesToNat l / 2 ^ e % 2 := by
        intro e hE
        rw [h256, ← hE]
        have hsum : e + j2 + 1 = e + (j2 + 1) := by omega
        rw [hsum, Nat.pow_add]
        have hmul : b * (2 ^ e * 2 ^ (j2 + 1)) = 2 ^ e * (b * 2 ^ (j2 + 1)) := by ring
        rw [hmul, Nat.mul_add_div (Nat.two_pow_pos e)]
        have h2 : b * 2 ^ (j2 + 1) + bytesToNat l / 2 ^ e =
            2 * (b * 2 ^ j2) + bytesToNat l / 2 ^ e := by ring
        rw [h2, Nat.mul_add_mod]
      rw [hcalc (l.length * 8 - 1 - j2) (by omega)]
      exact ih hbl j2 hj2

theorem shiftLeft_one_or (a b : Nat) (hb : b ≤ 1) : (a <<< 1) ||| b = 2 * a + b := by
  rw [Nat.shiftLeft_eq, Nat.pow_one]
  rcases Nat.le_one_iff_eq_zero_or_eq_one.mp hb with rfl | rfl
  · rw [Nat.or_zero]; omega
  · apply Nat.eq_of_testBit_eq
    intro i
    rw [Nat.testBit_or]
    cases i with
    | zero =>
      have e1 : a * 2 % 2 = 0 := by omega
      have e2 : (2 * a + 1) % 2 = 1 := by omega
      simp [Nat.testBit_zero, e1, e2]
    | succ i =>
      rw [Nat.testBit_add_one, Nat.testBit_add_one, Nat.testBit_add_one]
      have e1 : a * 2 / 2 = a := by omega
      have e2 : (2 * a + 1) / 2 = a := by omega
      have e3 : (1 : Nat) / 2 = 0 := by omega
      rw [e1, e2, e3]
      simp [Nat.zero_testBit]

theorem chunkFold_acc (msg : List Nat) (hb : ∀ b ∈ msg, b < 256) :
    ∀ m s acc, s + m ≤ msg.length * 8 →
      (List.range' s m).foldl
        (fun idx j => (idx <<< 1) ||| ((msg.getD (j / 8) 0 >>> (7 - j % 8)) &&& 1)) acc =
      acc * 2 ^ m + bytesToNat msg / 2 ^ (msg.length * 8 - (s + m)) % 2 ^ m := by
  intro m
  induction m with
  | zero =>
    intro s acc hsm
    simp [Nat.mod_one]
  | succ m ih =>
    intro s acc hsm
    rw [List.range'_concat, List.foldl_append]
    simp only [List.foldl_cons, List.foldl_nil]
    rw [ih s acc (by omega)]
    have h1m : 1 * m = m := Nat.one_mul m
    rw [h1m]
    have hbit := getBit_eq msg hb (s + m) (by omega)
    rw [hbit]
    have hble : bytesToNat msg / 2 ^ (msg.length * 8 - 1 - (s + m)) % 2 ≤ 1 := by
      have h2 := Nat.mod_lt (bytesToNat msg / 2 ^ (msg.length * 8 - 1 - (s + m)))
        (show 0 < 2 by omega)
      omega
    rw [shiftLeft_one_or _ _ hble]
    have hE1 : msg.length * 8 - (s + m) = (msg.length * 8 - (s + (m + 1))) + 1 := by omega
    have hE2 : msg.length * 8 - 1 - (s + m) = msg.length * 8 - (s + (m + 1)) := by omega
    rw [hE1, hE2, Nat.pow_add, Nat.pow_one, ← Nat.div_div_eq_div_mul]
    have hmm : bytesToNat msg / 2 ^ (msg.length * 8 - (s + (m + 1))) % 2 ^ (m + 1) =
        bytesToNat msg / 2 ^ (msg.length * 8 - (s + (m + 1))) % 2 +
        2 * (bytesToNat msg / 2 ^ (msg.length * 8 - (s + (m + 1))) / 2 % 2 ^ m) := by
      have h2m : (2 : Nat) ^ (m + 1) = 2 * 2 ^ m := by ring
      rw [h2m, Nat.mod_mul]
    rw [hmm]
    ring

theorem chunkFold_eq (msg : List Nat) (hb : ∀ b ∈ msg, b < 256) (s h : Nat)
    (hsh : s + h ≤ msg.length * 8) :
    chunkFold msg s (s + h) =
      bytesToNat msg / 2 ^ (msg.length * 8 - (s + h)) % 2 ^ h := by
  unfold chunkFold
  have he : s + h - s = h := by omega
  rw [he, chunkFold_acc msg hb h s 0 hsh]
  simp

/-- C7.  FORS signing raises the digest-length error exactly when the
digest supplies fewer than k * fors_height bits; with a sufficiently
long digest no error is raised and chunk i is read from bits
[i*fors_height, (i+1)*fors_height) of the big-endian bit stream of the
digest (here written as a shift of the digest value), reduced mod t. -/
theorem c7_fors_digest_error_iff (msg skSeed pkSeed addr : List Nat)
    (hb : ∀ b ∈ msg, b < 256) :
    ((fors_sign p Hf msg skSeed pkSeed addr = none) ↔
      msg.length * 8 < p.k * fors_height p) ∧
    (p.k * fors_height p ≤ msg.length * 8 →
      forsIndices p msg = (List.range p.k).map (fun i =>
        bytesToNat msg / 2 ^ (msg.length * 8 - (i + 1) * fors_height p) % 2 ^ fors_height p
          % p.t)) := by
  constructor
  · by_cases hg : p.k * fors_height p > msg.length * 8
    · simp [fors_sign, hg]
    · simp [fors_sign, hg]
  · intro hge
    simp only [forsIndices]
    refine List.map_congr_left (fun i hi => ?_)
    have hik : i < p.k := List.mem_range.mp hi
    have hle : i * fors_height p + fors_height p ≤ msg.length * 8 := by
      have h1 : (i + 1) * fors_height p ≤ p.k * fors_height p :=
        Nat.mul_le_mul_right _ (by omega)
      calc i * fors_height p + fors_height p = (i + 1) * fors_height p := by ring
        _ ≤ p.k * fors_height p := h1
        _ ≤ msg.length * 8 := hge
    rw [min_eq_left hle, chunkFold_eq msg hb (i * fors_height p) (fors_height p) hle]
    have he : i * fors_height p + fors_height p = (i + 1) * fors_height p := by ring
    rw [he]

set_option maxRecDepth 400000 in
/-- C7 witness: the error characterisation and the index extraction
evaluated at PF (k=1, t=4) on the one-byte digest [171]. -/
theorem c7_fors_digest_error_iff_witness :
    (∀ b ∈ ([171] : List Nat), b < 256) ∧
    (((fors_sign PF toyH [171] [3] [5] [65] = none) ↔
       ([171] : List Nat).length * 8 < PF.k * fors_height PF) ∧
     (PF.k * fors_height PF ≤ ([171] : List Nat).length * 8 →
       forsIndices PF [171] = (List.range PF.k).map (fun i =>
         bytesToNat [171] / 2 ^ (([171] : List Nat).length * 8 - (i + 1) * fors_height PF) %
           2 ^ fors_height PF % PF.t))) :=
  ⟨by decide, c7_fors_digest_error_iff PF toyH [171] [3] [5] [65] (by decide)⟩

end SPX
